import Mathlib

/-!
Shallow embedding of the route-finding assignment (part_a graph model,
part_b ML edge reweighter, and the search contract) together with proofs
of the specified properties.

Python dictionaries are modelled as association lists whose key column is
duplicate-free (`nodes_nodup`, `edges_nodup` below), matching the
uniqueness of keys in a `dict`.  Float arithmetic on costs and
coordinates is modelled over `ℚ` (exact values), and the real-valued
results of `math`-style square roots over `ℝ`; Python's `float('inf')`
sentinel is the `⊤` of `EReal`.
-/

namespace Assignment2B

/-- `d.get k` / `d[k]` on a Python dict modelled as an association list:
the value at the first (hence, with unique keys, the only) matching key. -/
def dictLookup {κ α : Type} [DecidableEq κ] (l : List (κ × α)) (k : κ) : Option α :=
  (l.find? (fun p => p.1 = k)).map Prod.snd

/-- `d[k] = v` on a Python dict modelled as an association list: overwrite
the value at `k` if `k` is a key, otherwise append the new binding. -/
def dictInsert {κ α : Type} [DecidableEq κ] (l : List (κ × α)) (k : κ) (v : α) :
    List (κ × α) :=
  if k ∈ l.map Prod.fst then
    l.map (fun p => if p.1 = k then (k, v) else p)
  else
    l ++ [(k, v)]

theorem dictLookup_eq_of_mem {κ α : Type} [DecidableEq κ] {l : List (κ × α)}
    (hnd : (l.map Prod.fst).Nodup) {k : κ} {v : α} (hm : (k, v) ∈ l) :
    dictLookup l k = some v := by
  induction l with
  | nil => cases hm
  | cons p l ih =>
    rw [List.map_cons, List.nodup_cons] at hnd
    rcases List.mem_cons.mp hm with h | h
    · subst h
      simp [dictLookup, List.find?]
    · have hne : p.1 ≠ k := by
        intro he
        exact hnd.1 (he ▸ (List.mem_map.mpr ⟨(k, v), h, rfl⟩))
      have := ih hnd.2 h
      simpa [dictLookup, List.find?_cons, hne] using this

theorem dictLookup_eq_none {κ α : Type} [DecidableEq κ] {l : List (κ × α)}
    {k : κ} (hk : k ∉ l.map Prod.fst) : dictLookup l k = none := by
  induction l with
  | nil => rfl
  | cons p l ih =>
    rw [List.map_cons, List.mem_cons] at hk
    push_neg at hk
    have hne : p.1 ≠ k := fun he => hk.1 he.symm
    have := ih hk.2
    simpa [dictLookup, List.find?_cons, hne] using this

theorem dictInsert_keys_nodup {κ α : Type} [DecidableEq κ] {l : List (κ × α)}
    (hnd : (l.map Prod.fst).Nodup) (k : κ) (v : α) :
    ((dictInsert l k v).map Prod.fst).Nodup := by
  unfold dictInsert
  split
  · have hkeys : (l.map (fun p => if p.1 = k then (k, v) else p)).map Prod.fst
        = l.map Prod.fst := by
      rw [List.map_map]
      refine List.map_congr_left ?_
      intro p _
      by_cases hp : p.1 = k <;> simp [hp]
    rw [hkeys]
    exact hnd
  · rename_i hk
    rw [List.map_append]
    simp only [List.map_cons, List.map_nil]
    rw [List.nodup_append]
    exact ⟨hnd, List.nodup_singleton k, by simpa using hk⟩

theorem dictLookup_overwrite_self {κ α : Type} [DecidableEq κ] {l : List (κ × α)}
    {k : κ} (v : α) (hk : k ∈ l.map Prod.fst) :
    dictLookup (l.map (fun p => if p.1 = k then (k, v) else p)) k = some v := by
  induction l with
  | nil => simp at hk
  | cons p l ih =>
    by_cases hp : p.1 = k
    · simp [dictLookup, List.find?_cons, hp]
    · rw [List.map_cons, List.mem_cons] at hk
      rcases hk with hk | hk
      · exact absurd hk.symm hp
      · have := ih hk
        simpa [dictLookup, List.find?_cons, hp] using this

theorem dictLookup_append_self {κ α : Type} [DecidableEq κ] {l : List (κ × α)}
    {k : κ} (v : α) (hk : k ∉ l.map Prod.fst) :
    dictLookup (l ++ [(k, v)]) k = some v := by
  induction l with
  | nil => simp [dictLookup, List.find?]
  | cons p l ih =>
    rw [List.map_cons, List.mem_cons] at hk
    push_neg at hk
    have hp : p.1 ≠ k := fun he => hk.1 he.symm
    have := ih hk.2
    simpa [dictLookup, List.find?_cons, hp] using this

theorem dictLookup_dictInsert_self {κ α : Type} [DecidableEq κ] (l : List (κ × α))
    (k : κ) (v : α) : dictLookup (dictInsert l k v) k = some v := by
  unfold dictInsert
  split
  · exact dictLookup_overwrite_self v (by assumption)
  · exact dictLookup_append_self v (by assumption)

theorem dictLookup_overwrite_ne {κ α : Type} [DecidableEq κ] {l : List (κ × α)}
    {k k' : κ} (v : α) (hne : k' ≠ k) :
    dictLookup (l.map (fun p => if p.1 = k then (k, v) else p)) k' = dictLookup l k' := by
  induction l with
  | nil => rfl
  | cons p l ih =>
    by_cases hp : p.1 = k
    · have hpk : p.1 ≠ k' := fun he => hne (he ▸ hp)
      have hkk' : k ≠ k' := fun he => hne he.symm
      simpa [dictLookup, List.find?_cons, hp, hkk', hpk] using ih
    · by_cases hp' : p.1 = k'
      · simp [dictLookup, List.find?_cons, hp, hp', hne]
      · simpa [dictLookup, List.find?_cons, hp, hp'] using ih

theorem dictLookup_append_ne {κ α : Type} [DecidableEq κ] {l : List (κ × α)}
    {k k' : κ} (v : α) (hne : k' ≠ k) :
    dictLookup (l ++ [(k, v)]) k' = dictLookup l k' := by
  induction l with
  | nil => simp [dictLookup, List.find?, hne.symm]
  | cons p l ih =>
    by_cases hp' : p.1 = k'
    · simp [dictLookup, List.find?_cons, hp']
    · simpa [dictLookup, List.find?_cons, hp'] using ih

theorem dictLookup_dictInsert_ne {κ α : Type} [DecidableEq κ] (l : List (κ × α))
    {k k' : κ} (v : α) (hne : k' ≠ k) :
    dictLookup (dictInsert l k v) k' = dictLookup l k' := by
  unfold dictInsert
  split
  · exact dictLookup_overwrite_ne v hne
  · exact dictLookup_append_ne v hne

/-- The `Graph` class of `part_a/graph.py`: a node-coordinate dict, an
edge-cost dict keyed by ordered pairs, an origin and a destination list.
The two `Nodup` fields record that Python dict keys are unique. -/
structure Graph (ν : Type) where
  nodes : List (ν × ℚ × ℚ)
  edges : List ((ν × ν) × ℚ)
  origin : ν
  destinations : List ν
  nodes_nodup : (nodes.map Prod.fst).Nodup
  edges_nodup : (edges.map Prod.fst).Nodup

/-- `Graph.get_neighbors`: collect `(to_node, cost)` for every edge whose
source is `node_id`, then sort by neighbor ID (`sorted(..., key=x[0])`;
`List.insertionSort` is, like Python's `sorted`, a stable sort). -/
def Graph.get_neighbors {ν : Type} [LinearOrder ν] (g : Graph ν) (node_id : ν) :
    List (ν × ℚ) :=
  List.insertionSort (fun a b => a.1 ≤ b.1)
    ((g.edges.filter (fun e => e.1.1 = node_id)).map (fun e => (e.1.2, e.2)))

/-- `Graph.is_destination`: membership in the destination list. -/
def Graph.is_destination {ν : Type} [DecidableEq ν] (g : Graph ν) (node_id : ν) : Bool :=
  decide (node_id ∈ g.destinations)

/-- `Graph.get_coordinates`: `self.nodes.get(node_id, (0, 0))`. -/
def Graph.get_coordinates {ν : Type} [DecidableEq ν] (g : Graph ν) (node_id : ν) :
    ℚ × ℚ :=
  (dictLookup g.nodes node_id).getD (0, 0)

/-- The error line printed by `Graph.heuristic` when no destination is
configured (the f-string's `node_id` interpolation is elided: node
identifiers are abstract here). -/
def heuristicErrMsg : String := "[ERROR] heuristic() called with no destinations!"

/-- The straight-line distance formula of `Graph.heuristic`:
`((x2 - x1) ** 2 + (y2 - y1) ** 2) ** 0.5` from coordinates `p` to `q`. -/
noncomputable def sqrtDist (p q : ℚ × ℚ) : ℝ :=
  Real.sqrt (((q.1 : ℝ) - (p.1 : ℝ)) ^ 2 + ((q.2 : ℝ) - (p.2 : ℝ)) ^ 2)

/-- `Graph.heuristic`: straight-line distance to an explicit target, or the
minimum such distance over all destinations when the target is omitted
(`destination_id = none`).  The first component is the returned value —
`⊤ : EReal` models the `float('inf')` sentinel — and the second collects
the error lines printed (`[]` when nothing is printed). -/
noncomputable def Graph.heuristic {ν : Type} [DecidableEq ν] (g : Graph ν)
    (node_id : ν) (destination_id : Option ν) : EReal × List String :=
  match destination_id with
  | some d =>
    (((sqrtDist (g.get_coordinates node_id) (g.get_coordinates d) : ℝ) : EReal), [])
  | none =>
    match g.destinations with
    | [] => ((⊤ : EReal), [heuristicErrMsg])
    | d :: ds =>
      ((((ds.map (fun dst => sqrtDist (g.get_coordinates node_id) (g.get_coordinates dst))).foldl
          min (sqrtDist (g.get_coordinates node_id) (g.get_coordinates d)) : ℝ) : EReal), [])

/-- Specification-side Euclidean plane point for a coordinate pair. -/
noncomputable def toEuclPoint (p : ℚ × ℚ) : EuclideanSpace ℝ (Fin 2) :=
  (WithLp.equiv 2 (Fin 2 → ℝ)).symm ![(p.1 : ℝ), (p.2 : ℝ)]

/-- Specification-side Euclidean (straight-line) distance between two
coordinate pairs: the metric of the Euclidean plane `EuclideanSpace ℝ (Fin 2)`. -/
noncomputable def euclidDist (p q : ℚ × ℚ) : ℝ :=
  dist (toEuclPoint p) (toEuclPoint q)

/-- The `.str.strip().str.upper()` normalization that `graph_updater.py`
applies to node names: drop surrounding blanks, uppercase the rest
(spelled over the character list so that it evaluates by kernel
reduction). -/
def normalize (s : String) : String :=
  ⟨((s.data.dropWhile (fun c => c = ' ')).reverse.dropWhile (fun c => c = ' ')).reverse.map
      Char.toUpper⟩

/-- One row of the traffic-volume CSV (`Location`, `SiteID`, `Volume`,
`Datetime`), with `Datetime` modelled as an integer timestamp. -/
structure VolumeRow where
  location : String
  siteID : ℤ
  volume : ℚ
  datetime : ℤ
deriving DecidableEq

/-- The key order of `volume_df.sort_values(by=['SiteID', 'Datetime'])`. -/
def volLE (a b : VolumeRow) : Prop :=
  a.siteID < b.siteID ∨ (a.siteID = b.siteID ∧ a.datetime ≤ b.datetime)

instance : DecidableRel volLE := fun a b => by
  unfold volLE
  infer_instance

/-- `volume_df` sorted by `(SiteID, Datetime)`. -/
def sortVolume (l : List VolumeRow) : List VolumeRow := List.insertionSort volLE l

/-- The volume table as `update_graph_with_ml` prepares it: sorted by
`(SiteID, Datetime)`, then `Location` normalized. -/
def normVolume (volume : List VolumeRow) : List VolumeRow :=
  (sortVolume volume).map (fun r => ⟨normalize r.location, r.siteID, r.volume, r.datetime⟩)

/-- The static edge list `df_edges` (`from`, `to`, `distance_km` per row)
after the `from`/`to` normalization. -/
def normDf (df : List (String × String × ℚ)) : List (String × String × ℚ) :=
  df.map (fun r => (normalize r.1, normalize r.2.1, r.2.2))

/-- The body of the per-edge loop of `update_graph_with_ml`: the new cost
for an edge leaving `from_loc` whose static cost is `default_cost`, paired
with `true` for an ML update and `false` for a fallback.  The head of the
mapped filter is `site_ids[0]` (pandas `.unique()` keeps the first
occurrence, and only index 0 is read); `predict` models
`model.predict(...)[0]` with exceptions as `Except.error`. -/
def processEdge (vol : List VolumeRow) (predict : List ℚ → Except String ℚ)
    (from_loc : String) (default_cost : ℚ) : ℚ × Bool :=
  match (vol.filter (fun r => r.location = from_loc)).map VolumeRow.siteID with
  | [] => (default_cost, false)
  | site_id :: _ =>
    let site_data := vol.filter (fun r => r.siteID = site_id)
    if site_data.length < 4 then (default_cost, false)
    else
      let latest_vols := (site_data.map VolumeRow.volume).drop (site_data.length - 4)
      if latest_vols.length ≠ 4 then (default_cost, false)
      else
        match predict latest_vols with
        | .ok v => (v, true)
        | .error _ => (default_cost, false)

/-- The edge-table writes of the per-edge loop:
`graph.edges[(from_loc, to_loc)] = cost` folded over every row of the
static edge list. -/
def updateEdges (vol : List VolumeRow) (predict : List ℚ → Except String ℚ)
    (rows : List (String × String × ℚ)) (edges : List ((String × String) × ℚ)) :
    List ((String × String) × ℚ) :=
  rows.foldl
    (fun acc row => dictInsert acc (row.1, row.2.1) (processEdge vol predict row.1 row.2.2).1)
    edges

theorem updateEdges_keys_nodup (vol : List VolumeRow) (predict : List ℚ → Except String ℚ)
    (rows : List (String × String × ℚ)) :
    ∀ {edges : List ((String × String) × ℚ)}, (edges.map Prod.fst).Nodup →
      ((updateEdges vol predict rows edges).map Prod.fst).Nodup := by
  induction rows with
  | nil => intro edges h; exact h
  | cons row rows ih =>
    intro edges h
    exact ih (dictInsert_keys_nodup h _ _)

/-- `update_graph_with_ml(graph, ...)`: every row of the static edge list
gets exactly one cost written into the graph's edge table — the ML
prediction on the most recent 4 volume observations when available and
successful, the static `distance_km` otherwise.  Returns the updated graph
together with the `updated_edges` and `fallback_edges` counters. -/
def update_graph_with_ml (g : Graph String) (df_edges : List (String × String × ℚ))
    (volume : List VolumeRow) (predict : List ℚ → Except String ℚ) :
    Graph String × ℕ × ℕ :=
  (⟨g.nodes,
    updateEdges (normVolume volume) predict (normDf df_edges) g.edges,
    g.origin, g.destinations, g.nodes_nodup,
    updateEdges_keys_nodup _ _ _ g.edges_nodup⟩,
   ((normDf df_edges).map
      (fun row => (processEdge (normVolume volume) predict row.1 row.2.2).2)).count true,
   ((normDf df_edges).map
      (fun row => (processEdge (normVolume volume) predict row.1 row.2.2).2)).count false)

/-- `true` iff the volume table has no site for `from_loc`, or fewer than
the 4-observation lookback window for its (first) site: the designed
static-cost degradation path of the Reweighter. -/
def insufficientHistory (vol : List VolumeRow) (from_loc : String) : Bool :=
  match (vol.filter (fun r => r.location = from_loc)).map VolumeRow.siteID with
  | [] => true
  | site_id :: _ => (vol.filter (fun r => r.siteID = site_id)).length < 4

/-- Modelled from the spec: a frontier entry of the generic search loop of
§4.2 — the node, the path so far, the accumulated cost and the strategy's
priority key.  (The six strategy implementations
`part_a/algorithms/{dfs,bfs,gbfs,astar,cus1,cus2}.py` are not among the
available sources; only their caller `part_a/search.py` is, so the search
contract is modelled from the design document.) -/
structure Entry (ν : Type) where
  node : ν
  path : List ν
  cost : ℚ
  key : EReal

/-- Modelled from the spec: the frontier discipline of §4.3 — LIFO stack,
FIFO queue, or priority queue ordered by a key computed from the node and
the accumulated cost, ties broken by ascending node ID. -/
inductive Discipline (ν : Type) where
  | stack : Discipline ν
  | queue : Discipline ν
  | priority : (ν → ℚ → EReal) → Discipline ν

/-- The priority key a discipline attaches to a new entry (unused by the
stack and queue disciplines). -/
def Discipline.keyOf {ν : Type} : Discipline ν → ν → ℚ → EReal
  | .stack, _, _ => 0
  | .queue, _, _ => 0
  | .priority f, n, c => f n c

/-- Insert one entry into a priority frontier kept sorted by
`(key, node ID)` ascending. -/
noncomputable def prioInsert {ν : Type} [LinearOrder ν] (e : Entry ν) :
    List (Entry ν) → List (Entry ν)
  | [] => [e]
  | b :: l =>
    if e.key < b.key ∨ (e.key = b.key ∧ e.node ≤ b.node) then e :: b :: l
    else b :: prioInsert e l

/-- Modelled from the spec: how a discipline admits the batch of newly
created entries (listed in ascending-neighbor order): the stack pushes
them so the smallest-ID neighbor pops first, the queue appends them, the
priority queue inserts each by its key. -/
noncomputable def insertAll {ν : Type} [LinearOrder ν] :
    Discipline ν → List (Entry ν) → List (Entry ν) → List (Entry ν)
  | .stack, new, rest => new ++ rest
  | .queue, new, rest => rest ++ new
  | .priority _, new, rest => new.foldl (fun acc e => prioInsert e acc) rest

/-- Every node a frontier entry can ever carry: the origin and the edge
targets. -/
def nodeUniverse {ν : Type} [DecidableEq ν] (g : Graph ν) : Finset ν :=
  insert g.origin (g.edges.map (fun e => e.1.2)).toFinset

theorem mem_prioInsert {ν : Type} [LinearOrder ν] (e x : Entry ν) :
    ∀ l : List (Entry ν), x ∈ prioInsert e l → x = e ∨ x ∈ l := by
  intro l
  induction l with
  | nil =>
    intro hx
    rw [prioInsert] at hx
    exact Or.inl (List.mem_singleton.mp hx)
  | cons b l ih =>
    intro hx
    rw [prioInsert] at hx
    split at hx
    · rcases List.mem_cons.mp hx with h | h
      · exact Or.inl h
      · exact Or.inr h
    · rcases List.mem_cons.mp hx with h | h
      · exact Or.inr (h ▸ List.mem_cons_self b l)
      · rcases ih h with h2 | h2
        · exact Or.inl h2
        · exact Or.inr (List.mem_cons_of_mem b h2)

theorem mem_insertAll {ν : Type} [LinearOrder ν] (d : Discipline ν) :
    ∀ (new rest : List (Entry ν)) (x : Entry ν),
      x ∈ insertAll d new rest → x ∈ new ∨ x ∈ rest := by
  cases d with
  | stack =>
    intro new rest x hx
    rw [insertAll] at hx
    exact List.mem_append.mp hx
  | queue =>
    intro new rest x hx
    rw [insertAll] at hx
    exact (List.mem_append.mp hx).symm
  | priority f =>
    intro new
    induction new with
    | nil =>
      intro rest x hx
      rw [insertAll] at hx
      exact Or.inr hx
    | cons e new ih =>
      intro rest x hx
      rw [insertAll, List.foldl_cons] at hx
      have hx2 : x ∈ insertAll (Discipline.priority f) new (prioInsert e rest) := by
        rw [insertAll]
        exact hx
      rcases ih (prioInsert e rest) x hx2 with h | h
      · exact Or.inl (List.mem_cons_of_mem e h)
      · rcases mem_prioInsert e x rest h with h2 | h2
        · exact Or.inl (h2 ▸ List.mem_cons_self e new)
        · exact Or.inr h2

theorem get_neighbors_target_mem {ν : Type} [LinearOrder ν] (g : Graph ν) (m : ν) :
    ∀ q ∈ g.get_neighbors m, q.1 ∈ g.edges.map (fun ed => ed.1.2) := by
  intro q hq
  unfold Graph.get_neighbors at hq
  rw [(List.perm_insertionSort (fun (a b : ν × ℚ) => a.1 ≤ b.1) _).mem_iff] at hq
  rcases List.mem_map.mp hq with ⟨ed, hed, hedq⟩
  exact List.mem_map.mpr ⟨ed, (List.mem_filter.mp hed).1, by rw [← hedq]⟩

theorem search_measure_discard {ν : Type} [DecidableEq ν] (A : Finset ν) (bn : ν)
    (visited : Finset ν) (n : ℕ) :
    Prod.Lex (· < ·) (· < ·) ((((A \ visited).card, n)) : ℕ × ℕ)
      ((insert bn A \ visited).card, n + 1) := by
  have hsub : A \ visited ⊆ insert bn A \ visited :=
    Finset.sdiff_subset_sdiff (Finset.subset_insert bn A) (Finset.Subset.refl visited)
  rcases lt_or_eq_of_le (Finset.card_le_card hsub) with h | h
  · exact Prod.Lex.left _ _ h
  · rw [h]
    exact Prod.Lex.right _ (Nat.lt_succ_self n)

theorem search_measure_expand {ν : Type} [LinearOrder ν] (g : Graph ν) (d : Discipline ν)
    (b : Entry ν) (l : List (Entry ν)) (visited : Finset ν)
    (hv : b.node ∉ visited) :
    Prod.Lex (· < ·) (· < ·)
      ((((nodeUniverse g ∪
          ((insertAll d
            ((g.get_neighbors b.node).map
              (fun p => ⟨p.1, b.path ++ [p.1], b.cost + p.2, d.keyOf p.1 (b.cost + p.2)⟩))
            l).map Entry.node).toFinset) \ (insert b.node visited)).card,
        (insertAll d
            ((g.get_neighbors b.node).map
              (fun p => ⟨p.1, b.path ++ [p.1], b.cost + p.2, d.keyOf p.1 (b.cost + p.2)⟩))
            l).length) : ℕ × ℕ)
      ((insert b.node (nodeUniverse g ∪ (l.map Entry.node).toFinset) \ visited).card,
        l.length + 1) := by
  apply Prod.Lex.left
  have hsub : (nodeUniverse g ∪
        ((insertAll d
          ((g.get_neighbors b.node).map
            (fun p => ⟨p.1, b.path ++ [p.1], b.cost + p.2, d.keyOf p.1 (b.cost + p.2)⟩))
          l).map Entry.node).toFinset) \ (insert b.node visited)
      ⊆ insert b.node (nodeUniverse g ∪ (l.map Entry.node).toFinset) \ visited := by
    intro x hx
    rw [Finset.mem_sdiff, Finset.mem_insert] at hx
    push_neg at hx
    rw [Finset.mem_sdiff]
    refine ⟨Finset.mem_insert.mpr (Or.inr ?_), hx.2.2⟩
    rcases Finset.mem_union.mp hx.1 with h | h
    · exact Finset.mem_union_left _ h
    · rw [List.mem_toFinset] at h
      rcases List.mem_map.mp h with ⟨ent, hent, hentx⟩
      rcases mem_insertAll d _ l ent hent with hn | hr
      · rcases List.mem_map.mp hn with ⟨p, hp, hpent⟩
        have htgt : p.1 ∈ g.edges.map (fun ed => ed.1.2) :=
          get_neighbors_target_mem g b.node p hp
        have hxU : x ∈ nodeUniverse g := by
          rw [nodeUniverse, Finset.mem_insert]
          refine Or.inr ?_
          rw [List.mem_toFinset]
          rw [← hentx, ← hpent]
          exact htgt
        exact Finset.mem_union_left _ hxU
      · exact Finset.mem_union_right _
          (List.mem_toFinset.mpr (List.mem_map.mpr ⟨ent, hr, hentx⟩))
  refine Finset.card_lt_card ((Finset.ssubset_iff_of_subset hsub).mpr ?_)
  refine ⟨b.node, ?_, ?_⟩
  · rw [Finset.mem_sdiff]
    exact ⟨Finset.mem_insert_self _ _, hv⟩
  · intro hmem
    rw [Finset.mem_sdiff, Finset.mem_insert] at hmem
    exact hmem.2 (Or.inl rfl)

/-- Modelled from the spec: the generic search loop of §4.2.  One entry is
popped per iteration; an already-expanded node is discarded; a destination
is recognized at pop time (success returns it with the created counter and
the path-so-far); otherwise the node is expanded — one entry per neighbor
in ascending-ID order is constructed and counted, and admitted to the
frontier per the discipline. -/
noncomputable def searchLoop {ν : Type} [LinearOrder ν] (g : Graph ν) (d : Discipline ν)
    (frontier : List (Entry ν)) (visited : Finset ν) (created : ℕ) :
    Option ν × ℕ × List ν :=
  match frontier with
  | [] => (none, created, [])
  | e :: rest =>
    if hv : e.node ∈ visited then
      searchLoop g d rest visited created
    else if hdst : g.is_destination e.node then
      (some e.node, created, e.path)
    else
      searchLoop g d
        (insertAll d
          ((g.get_neighbors e.node).map
            (fun p => ⟨p.1, e.path ++ [p.1], e.cost + p.2, d.keyOf p.1 (e.cost + p.2)⟩))
          rest)
        (insert e.node visited)
        (created + (g.get_neighbors e.node).length)
termination_by
  (((nodeUniverse g ∪ (frontier.map Entry.node).toFinset) \ visited).card, frontier.length)
decreasing_by
  · simp_wf
    apply search_measure_discard
  · simp_wf
    apply search_measure_expand
    assumption

/-- Modelled from the spec: run one strategy's discipline from the single
origin entry (path `[origin]`, accumulated cost 0, created counter 1). -/
noncomputable def genSearch {ν : Type} [LinearOrder ν] (g : Graph ν) (d : Discipline ν) :
    Option ν × ℕ × List ν :=
  searchLoop g d [⟨g.origin, [g.origin], 0, d.keyOf g.origin 0⟩] ∅ 1

/-- The value `heuristic(node)` used by the informed strategies. -/
noncomputable def heuristicVal {ν : Type} [DecidableEq ν] (g : Graph ν) (n : ν) : EReal :=
  (g.heuristic n none).1

/-- Modelled from the spec: depth-first search — LIFO stack. -/
noncomputable def dfs {ν : Type} [LinearOrder ν] (g : Graph ν) : Option ν × ℕ × List ν :=
  genSearch g .stack

/-- Modelled from the spec: breadth-first search — FIFO queue. -/
noncomputable def bfs {ν : Type} [LinearOrder ν] (g : Graph ν) : Option ν × ℕ × List ν :=
  genSearch g .queue

/-- Modelled from the spec: greedy best-first — priority `heuristic(node)`. -/
noncomputable def gbfs {ν : Type} [LinearOrder ν] (g : Graph ν) : Option ν × ℕ × List ν :=
  genSearch g (.priority (fun n _ => heuristicVal g n))

/-- Modelled from the spec: A* — priority `cost + heuristic(node)`. -/
noncomputable def astar {ν : Type} [LinearOrder ν] (g : Graph ν) : Option ν × ℕ × List ν :=
  genSearch g (.priority (fun n c => ((c : ℝ) : EReal) + heuristicVal g n))

/-- Modelled from the spec: custom uninformed (CUS1) — uniform cost. -/
noncomputable def cus1 {ν : Type} [LinearOrder ν] (g : Graph ν) : Option ν × ℕ × List ν :=
  genSearch g (.priority (fun n c => ((c : ℝ) : EReal)))

/-- Modelled from the spec: custom informed (CUS2) — weighted combination
of accumulated cost and heuristic, with tunable weight `w`. -/
noncomputable def cus2 {ν : Type} [LinearOrder ν] (w : ℚ) (g : Graph ν) :
    Option ν × ℕ × List ν :=
  genSearch g (.priority (fun n c => (((w * c : ℚ) : ℝ) : EReal) + heuristicVal g n))

section NeighborLemmas

variable {ν : Type} [LinearOrder ν]

theorem pairwise_and_of {α : Type} {R S : α → α → Prop} {l : List α}
    (hR : l.Pairwise R) (hS : l.Pairwise S) :
    l.Pairwise (fun a b => R a b ∧ S a b) := by
  induction l with
  | nil => exact List.Pairwise.nil
  | cons a l ih =>
    rw [List.pairwise_cons] at hR hS ⊢
    exact ⟨fun b hb => ⟨hR.1 b hb, hS.1 b hb⟩, ih hR.2 hS.2⟩

instance : IsTotal (ν × ℚ) (fun a b => a.1 ≤ b.1) :=
  ⟨fun a b => le_total a.1 b.1⟩

instance : IsTrans (ν × ℚ) (fun a b => a.1 ≤ b.1) :=
  ⟨fun _ _ _ h h' => le_trans h h'⟩

theorem get_neighbors_mem_iff (g : Graph ν) (n m : ν) (c : ℚ) :
    (m, c) ∈ g.get_neighbors n ↔ ((n, m), c) ∈ g.edges := by
  unfold Graph.get_neighbors
  rw [(List.perm_insertionSort (fun (a b : ν × ℚ) => a.1 ≤ b.1) _).mem_iff]
  constructor
  · intro h
    rcases List.mem_map.mp h with ⟨e, he, heq⟩
    rcases List.mem_filter.mp he with ⟨hmem, hsrc⟩
    have hn : e.1.1 = n := by simpa using hsrc
    have hm : e.1.2 = m := congrArg Prod.fst heq
    have hc : e.2 = c := congrArg Prod.snd heq
    have he2 : e = ((n, m), c) := by
      obtain ⟨⟨a, b⟩, d⟩ := e
      simp only at hn hm hc
      rw [hn, hm, hc]
    exact he2 ▸ hmem
  · intro hmem
    exact List.mem_map.mpr ⟨((n, m), c), List.mem_filter.mpr ⟨hmem, by simp⟩, rfl⟩

theorem get_neighbors_fst_nodup (g : Graph ν) (n : ν) :
    ((g.get_neighbors n).map Prod.fst).Nodup := by
  unfold Graph.get_neighbors
  rw [((List.perm_insertionSort (fun (a b : ν × ℚ) => a.1 ≤ b.1) _).map Prod.fst).nodup_iff]
  rw [List.map_map]
  have hkeys : ((g.edges.filter (fun e => decide (e.1.1 = n))).map Prod.fst).Nodup :=
    g.edges_nodup.sublist ((List.filter_sublist _).map Prod.fst)
  have hinj := List.inj_on_of_nodup_map hkeys
  refine List.Nodup.map_on ?_ hkeys.of_map
  intro x hx y hy hxy
  have hxn : x.1.1 = n := by simpa using (List.mem_filter.mp hx).2
  have hyn : y.1.1 = n := by simpa using (List.mem_filter.mp hy).2
  have hsnd : x.1.2 = y.1.2 := by simpa [Function.comp] using hxy
  exact hinj hx hy (Prod.ext (hxn.trans hyn.symm) hsnd)

end NeighborLemmas

/-- C1: `get_neighbors(n)` returns exactly the edges with source `n` as
`(neighbor, cost)` pairs, sorted strictly ascending by neighbor identifier
with no duplicate neighbor IDs.  (The embedding is a pure function of the
graph, so repeated calls on an unchanged graph trivially agree and do not
mutate it.) -/
theorem get_neighbors_spec {ν : Type} [LinearOrder ν] (g : Graph ν) (n : ν) :
    (∀ m c, (m, c) ∈ g.get_neighbors n ↔ ((n, m), c) ∈ g.edges) ∧
    ((g.get_neighbors n).map Prod.fst).Pairwise (· < ·) := by
  refine ⟨fun m c => get_neighbors_mem_iff g n m c, ?_⟩
  have hsorted : (g.get_neighbors n).Pairwise (fun (a b : ν × ℚ) => a.1 ≤ b.1) :=
    List.sorted_insertionSort (fun (a b : ν × ℚ) => a.1 ≤ b.1) _
  have hle : ((g.get_neighbors n).map Prod.fst).Pairwise (· ≤ ·) :=
    List.Pairwise.map Prod.fst (fun a b h => h) hsorted
  have hne : ((g.get_neighbors n).map Prod.fst).Pairwise (· ≠ ·) :=
    get_neighbors_fst_nodup g n
  exact (pairwise_and_of hle hne).imp (fun h => lt_of_le_of_ne h.1 h.2)

/-- C9: `get_coordinates` is total: it returns the stored coordinates of a
known node and `(0, 0)` for an unknown one. -/
theorem get_coordinates_total {ν : Type} [DecidableEq ν] (g : Graph ν) (n : ν) :
    (∀ x y, (n, x, y) ∈ g.nodes → g.get_coordinates n = (x, y)) ∧
    (n ∉ g.nodes.map Prod.fst → g.get_coordinates n = (0, 0)) := by
  constructor
  · intro x y hm
    unfold Graph.get_coordinates
    rw [dictLookup_eq_of_mem g.nodes_nodup hm]
    rfl
  · intro hn
    unfold Graph.get_coordinates
    rw [dictLookup_eq_none hn]
    rfl

/-- A concrete two-node graph used to instantiate hypotheses of the
claim theorems. -/
def gW : Graph ℤ where
  nodes := [(1, 2, 3), (2, 5, 7)]
  edges := [((1, 2), 4)]
  origin := 1
  destinations := [2]
  nodes_nodup := by decide
  edges_nodup := by decide

theorem get_coordinates_total_witness :
    gW.get_coordinates 1 = (2, 3) ∧ gW.get_coordinates 9 = (0, 0) :=
  ⟨(get_coordinates_total gW 1).1 2 3 (by decide),
   (get_coordinates_total gW 9).2 (by decide)⟩

/-- A concrete graph with an empty destination list. -/
def gE : Graph ℤ where
  nodes := [(1, 0, 0), (2, 3, 4)]
  edges := []
  origin := 1
  destinations := []
  nodes_nodup := by decide
  edges_nodup := by simp

theorem sqrtDist_eq_euclidDist (p q : ℚ × ℚ) : sqrtDist p q = euclidDist p q := by
  unfold sqrtDist euclidDist toEuclPoint
  rw [EuclideanSpace.dist_eq, Fin.sum_univ_two]
  simp only [WithLp.equiv_symm_pi_apply, Matrix.cons_val_zero, Matrix.cons_val_one,
    Matrix.head_cons, Real.dist_eq, sq_abs]
  congr 1
  ring

theorem foldl_min_le_init (l : List ℝ) (a : ℝ) : l.foldl min a ≤ a := by
  induction l generalizing a with
  | nil => exact le_refl a
  | cons x l ih => exact le_trans (ih (min a x)) (min_le_left a x)

theorem foldl_min_le_mem {l : List ℝ} {b : ℝ} (hb : b ∈ l) (a : ℝ) :
    l.foldl min a ≤ b := by
  induction l generalizing a with
  | nil => cases hb
  | cons x l ih =>
    rcases List.mem_cons.mp hb with h | h
    · subst h
      exact le_trans (foldl_min_le_init l (min a b)) (min_le_right a b)
    · exact ih h (min a x)

theorem foldl_min_mem (l : List ℝ) (a : ℝ) : l.foldl min a = a ∨ l.foldl min a ∈ l := by
  induction l generalizing a with
  | nil => exact Or.inl rfl
  | cons x l ih =>
    rw [List.foldl_cons]
    rcases ih (min a x) with h | h
    · rcases min_choice a x with hm | hm
      · exact Or.inl (h.trans hm)
      · exact Or.inr (by rw [h, hm]; exact List.mem_cons_self x l)
    · exact Or.inr (List.mem_cons_of_mem x h)

/-- C5: with an explicit target, `heuristic(n, t)` is the Euclidean
(straight-line) distance between the coordinates of `n` and `t`; with the
target omitted and a non-empty destination list, it is the least Euclidean
distance from `n` to any destination. -/
theorem heuristic_euclid {ν : Type} [DecidableEq ν] (g : Graph ν) (n t : ν) :
    (g.heuristic n (some t)).1
      = ((euclidDist (g.get_coordinates n) (g.get_coordinates t) : ℝ) : EReal) ∧
    (g.destinations ≠ [] →
      ∃ r : ℝ, (g.heuristic n none).1 = (r : EReal) ∧
        IsLeast {s : ℝ | ∃ d ∈ g.destinations,
          s = euclidDist (g.get_coordinates n) (g.get_coordinates d)} r) := by
  constructor
  · show ((sqrtDist (g.get_coordinates n) (g.get_coordinates t) : ℝ) : EReal) = _
    rw [sqrtDist_eq_euclidDist]
  · intro hne
    unfold Graph.heuristic
    cases hd : g.destinations with
    | nil => exact absurd hd hne
    | cons d ds =>
      refine ⟨(ds.map (fun dst => sqrtDist (g.get_coordinates n) (g.get_coordinates dst))).foldl
          min (sqrtDist (g.get_coordinates n) (g.get_coordinates d)), rfl, ?_, ?_⟩
      · rcases foldl_min_mem
          (ds.map (fun dst => sqrtDist (g.get_coordinates n) (g.get_coordinates dst)))
          (sqrtDist (g.get_coordinates n) (g.get_coordinates d)) with h | h
        · exact ⟨d, List.mem_cons_self d ds, by rw [h, sqrtDist_eq_euclidDist]⟩
        · rcases List.mem_map.mp h with ⟨d', hd', he⟩
          exact ⟨d', List.mem_cons_of_mem d hd', by rw [← he, sqrtDist_eq_euclidDist]⟩
      · rintro s ⟨d', hd', hs⟩
        rcases List.mem_cons.mp hd' with h | h
        · subst h
          subst hs
          rw [← sqrtDist_eq_euclidDist]
          exact foldl_min_le_init _ _
        · subst hs
          rw [← sqrtDist_eq_euclidDist]
          exact foldl_min_le_mem (List.mem_map.mpr ⟨d', h, rfl⟩) _

/-- C6: with no destinations configured and the target omitted, `heuristic`
fails closed: it returns the infinite sentinel and prints a diagnostic. -/
theorem heuristic_fails_closed {ν : Type} [DecidableEq ν] (g : Graph ν) (n : ν)
    (h : g.destinations = []) :
    g.heuristic n none = ((⊤ : EReal), [heuristicErrMsg]) := by
  unfold Graph.heuristic
  rw [h]

theorem heuristic_fails_closed_witness :
    gE.heuristic 1 none = ((⊤ : EReal), [heuristicErrMsg]) :=
  heuristic_fails_closed gE 1 rfl

/-- C10: even with an empty destination list, an explicit-target heuristic
request returns the ordinary Euclidean distance, never the infinite
sentinel: the fail-closed branch is reached only when the target is
omitted. -/
theorem heuristic_explicit_target_ignores_empty_dests {ν : Type} [DecidableEq ν]
    (g : Graph ν) (n t : ν) (h : g.destinations = []) :
    g.heuristic n (some t)
      = (((euclidDist (g.get_coordinates n) (g.get_coordinates t) : ℝ) : EReal), []) ∧
    (g.heuristic n (some t)).1 ≠ (⊤ : EReal) := by
  constructor
  · show (((sqrtDist (g.get_coordinates n) (g.get_coordinates t) : ℝ) : EReal), ([] : List String)) = _
    rw [sqrtDist_eq_euclidDist]
  · show ((sqrtDist (g.get_coordinates n) (g.get_coordinates t) : ℝ) : EReal) ≠ _
    exact EReal.coe_ne_top _

theorem heuristic_explicit_target_witness :
    gE.heuristic 1 (some 2)
      = (((euclidDist (gE.get_coordinates 1) (gE.get_coordinates 2) : ℝ) : EReal), []) ∧
    (gE.heuristic 1 (some 2)).1 ≠ (⊤ : EReal) :=
  heuristic_explicit_target_ignores_empty_dests gE 1 2 rfl

theorem heuristic_euclid_witness :
    ∃ r : ℝ, (gW.heuristic 1 none).1 = (r : EReal) ∧
      IsLeast {s : ℝ | ∃ d ∈ gW.destinations,
        s = euclidDist (gW.get_coordinates 1) (gW.get_coordinates d)} r :=
  (heuristic_euclid gW 1 2).2 (by decide)

/-- A concrete `String`-keyed graph for the Reweighter instances. -/
def gB : Graph String where
  nodes := [("A", 0, 0), ("B", 3, 4)]
  edges := [(("A", "B"), 5), (("B", "A"), 9)]
  origin := "A"
  destinations := ["B"]
  nodes_nodup := by decide
  edges_nodup := by decide

/-- A one-row static edge list (`from`, `to`, `distance_km`). -/
def dfW : List (String × String × ℚ) := [("A", "B", 5)]

/-- Four volume observations for site 1 at location `"A"`. -/
def volW : List VolumeRow :=
  [⟨"A", 1, 10, 1⟩, ⟨"A", 1, 20, 2⟩, ⟨"A", 1, 30, 3⟩, ⟨"A", 1, 40, 4⟩]

/-- Only three observations: below the lookback window. -/
def vol3 : List VolumeRow := [⟨"A", 1, 10, 1⟩, ⟨"A", 1, 20, 2⟩, ⟨"A", 1, 30, 3⟩]

def predictOk : List ℚ → Except String ℚ := fun _ => .ok 7

def predictErr : List ℚ → Except String ℚ := fun _ => .error "boom"

def predictNeg : List ℚ → Except String ℚ := fun _ => .ok (-3)

theorem updateEdges_cons (vol : List VolumeRow) (predict : List ℚ → Except String ℚ)
    (row : String × String × ℚ) (rows : List (String × String × ℚ))
    (edges : List ((String × String) × ℚ)) :
    updateEdges vol predict (row :: rows) edges
      = updateEdges vol predict rows
          (dictInsert edges (row.1, row.2.1) (processEdge vol predict row.1 row.2.2).1) := rfl

theorem updateEdges_append (vol : List VolumeRow) (predict : List ℚ → Except String ℚ)
    (l1 l2 : List (String × String × ℚ)) (edges : List ((String × String) × ℚ)) :
    updateEdges vol predict (l1 ++ l2) edges
      = updateEdges vol predict l2 (updateEdges vol predict l1 edges) := by
  unfold updateEdges
  rw [List.foldl_append]

theorem updateEdges_lookup_not_listed (vol : List VolumeRow)
    (predict : List ℚ → Except String ℚ) :
    ∀ (rows : List (String × String × ℚ)) (edges : List ((String × String) × ℚ))
      (k : String × String), (∀ row ∈ rows, (row.1, row.2.1) ≠ k) →
      dictLookup (updateEdges vol predict rows edges) k = dictLookup edges k := by
  intro rows
  induction rows with
  | nil => intro edges k _; rfl
  | cons row rows ih =>
    intro edges k h
    rw [updateEdges_cons, ih _ k (fun r hr => h r (List.mem_cons_of_mem _ hr))]
    exact dictLookup_dictInsert_ne _ _ (Ne.symm (h row (List.mem_cons_self _ _)))

theorem updateEdges_lookup_last (vol : List VolumeRow)
    (predict : List ℚ → Except String ℚ) (l1 : List (String × String × ℚ))
    (row : String × String × ℚ) (l2 : List (String × String × ℚ))
    (edges : List ((String × String) × ℚ))
    (h : ∀ r ∈ l2, (r.1, r.2.1) ≠ (row.1, row.2.1)) :
    dictLookup (updateEdges vol predict (l1 ++ row :: l2) edges) (row.1, row.2.1)
      = some (processEdge vol predict row.1 row.2.2).1 := by
  rw [updateEdges_append, updateEdges_cons,
    updateEdges_lookup_not_listed _ _ _ _ _ h]
  exact dictLookup_dictInsert_self _ _ _

theorem processEdge_insufficient (vol : List VolumeRow)
    (predict : List ℚ → Except String ℚ) (from_loc : String) (d : ℚ)
    (h : insufficientHistory vol from_loc = true) :
    processEdge vol predict from_loc d = (d, false) := by
  unfold insufficientHistory at h
  unfold processEdge
  cases hm : (vol.filter (fun r => r.location = from_loc)).map VolumeRow.siteID with
  | nil => rfl
  | cons sid rest =>
    rw [hm] at h
    simp only [decide_eq_true_eq] at h
    simp [h]

theorem processEdge_ok (vol : List VolumeRow) (predict : List ℚ → Except String ℚ)
    (from_loc : String) (d : ℚ) (sid : ℤ) (rest : List ℤ) (v : ℚ)
    (hm : (vol.filter (fun r => r.location = from_loc)).map VolumeRow.siteID = sid :: rest)
    (hlen : 4 ≤ (vol.filter (fun r => r.siteID = sid)).length)
    (hok : predict (((vol.filter (fun r => r.siteID = sid)).map VolumeRow.volume).drop
        ((vol.filter (fun r => r.siteID = sid)).length - 4)) = .ok v) :
    processEdge vol predict from_loc d = (v, true) := by
  unfold processEdge
  rw [hm]
  have hnlt : ¬ (vol.filter (fun r => r.siteID = sid)).length < 4 := not_lt.mpr hlen
  have hdrop : (((vol.filter (fun r => r.siteID = sid)).map VolumeRow.volume).drop
      ((vol.filter (fun r => r.siteID = sid)).length - 4)).length = 4 := by
    rw [List.length_drop, List.length_map]
    omega
  simp only [hnlt, if_false, hdrop, ne_eq, not_true_eq_false, hok]

theorem processEdge_err (vol : List VolumeRow) (predict : List ℚ → Except String ℚ)
    (from_loc : String) (d : ℚ) (sid : ℤ) (rest : List ℤ) (e : String)
    (hm : (vol.filter (fun r => r.location = from_loc)).map VolumeRow.siteID = sid :: rest)
    (hlen : 4 ≤ (vol.filter (fun r => r.siteID = sid)).length)
    (herr : predict (((vol.filter (fun r => r.siteID = sid)).map VolumeRow.volume).drop
        ((vol.filter (fun r => r.siteID = sid)).length - 4)) = .error e) :
    processEdge vol predict from_loc d = (d, false) := by
  unfold processEdge
  rw [hm]
  have hnlt : ¬ (vol.filter (fun r => r.siteID = sid)).length < 4 := not_lt.mpr hlen
  have hdrop : (((vol.filter (fun r => r.siteID = sid)).map VolumeRow.volume).drop
      ((vol.filter (fun r => r.siteID = sid)).length - 4)).length = 4 := by
    rw [List.length_drop, List.length_map]
    omega
  simp only [hnlt, if_false, hdrop, ne_eq, not_true_eq_false, herr]

/-- C3: the Reweighter's per-edge decision and completion.  No site for
`from`, or fewer than the 4-observation lookback window, assigns the
static cost (designed fallback, not an error); with enough observations
the predictor runs on the most recent 4 volumes and its value becomes the
cost on success, while a predictor exception assigns the static cost; and
the final table entry of every listed edge key is the decision of its last
row — every edge is processed, one failed prediction never aborts the
rest. -/
theorem update_per_edge_behavior (vol : List VolumeRow)
    (predict : List ℚ → Except String ℚ) (from_loc : String) (d : ℚ) :
    (insufficientHistory vol from_loc = true →
      processEdge vol predict from_loc d = (d, false)) ∧
    (∀ sid rest,
      (vol.filter (fun r => r.location = from_loc)).map VolumeRow.siteID = sid :: rest →
      4 ≤ (vol.filter (fun r => r.siteID = sid)).length →
      (∀ v, predict (((vol.filter (fun r => r.siteID = sid)).map VolumeRow.volume).drop
          ((vol.filter (fun r => r.siteID = sid)).length - 4)) = .ok v →
        processEdge vol predict from_loc d = (v, true)) ∧
      (∀ e, predict (((vol.filter (fun r => r.siteID = sid)).map VolumeRow.volume).drop
          ((vol.filter (fun r => r.siteID = sid)).length - 4)) = .error e →
        processEdge vol predict from_loc d = (d, false))) ∧
    (∀ (g : Graph String) (df : List (String × String × ℚ)) (volume : List VolumeRow)
      (l1 : List (String × String × ℚ)) (row : String × String × ℚ)
      (l2 : List (String × String × ℚ)),
      normDf df = l1 ++ row :: l2 →
      (∀ r ∈ l2, (r.1, r.2.1) ≠ (row.1, row.2.1)) →
      dictLookup (update_graph_with_ml g df volume predict).1.edges (row.1, row.2.1)
        = some (processEdge (normVolume volume) predict row.1 row.2.2).1) := by
  refine ⟨processEdge_insufficient vol predict from_loc d,
    fun sid rest hm hlen =>
      ⟨fun v hok => processEdge_ok vol predict from_loc d sid rest v hm hlen hok,
       fun e herr => processEdge_err vol predict from_loc d sid rest e hm hlen herr⟩,
    ?_⟩
  intro g df volume l1 row l2 hdf hlast
  show dictLookup (updateEdges (normVolume volume) predict (normDf df) g.edges)
      (row.1, row.2.1) = _
  rw [hdf]
  exact updateEdges_lookup_last _ _ _ _ _ _ hlast

theorem update_per_edge_behavior_witness :
    processEdge vol3 predictOk "A" 5 = (5, false) ∧
    processEdge volW predictOk "A" 5 = (7, true) ∧
    processEdge volW predictErr "A" 5 = (5, false) ∧
    dictLookup (update_graph_with_ml gB dfW volW predictOk).1.edges ("A", "B")
      = some (processEdge (normVolume volW) predictOk "A" 5).1 :=
  ⟨(update_per_edge_behavior vol3 predictOk "A" 5).1 (by decide),
   ((update_per_edge_behavior volW predictOk "A" 5).2.1 1 [1, 1, 1] (by decide)
      (by decide)).1 7 rfl,
   ((update_per_edge_behavior volW predictErr "A" 5).2.1 1 [1, 1, 1] (by decide)
      (by decide)).2 "boom" rfl,
   (update_per_edge_behavior (normVolume volW) predictOk "A" 5).2.2 gB dfW volW
      [] ("A", "B", 5) [] (by decide) (by simp)⟩

/-- C4: `update_graph_with_ml` changes only edge costs keyed by the
(normalized) static edge list: the node table, origin and destination list
are unchanged, and every edge key not in the static list keeps its cost. -/
theorem update_graph_with_ml_frame (g : Graph String)
    (df_edges : List (String × String × ℚ)) (volume : List VolumeRow)
    (predict : List ℚ → Except String ℚ) :
    (update_graph_with_ml g df_edges volume predict).1.nodes = g.nodes ∧
    (update_graph_with_ml g df_edges volume predict).1.origin = g.origin ∧
    (update_graph_with_ml g df_edges volume predict).1.destinations = g.destinations ∧
    (∀ k : String × String, (∀ row ∈ normDf df_edges, (row.1, row.2.1) ≠ k) →
      dictLookup (update_graph_with_ml g df_edges volume predict).1.edges k
        = dictLookup g.edges k) :=
  ⟨rfl, rfl, rfl,
   fun k hk => updateEdges_lookup_not_listed _ _ _ _ k hk⟩

theorem update_graph_with_ml_frame_witness :
    dictLookup (update_graph_with_ml gB dfW volW predictOk).1.edges ("B", "A")
      = dictLookup gB.edges ("B", "A") :=
  (update_graph_with_ml_frame gB dfW volW predictOk).2.2.2 ("B", "A") (by decide)

/-- C2 as stated is false of the code: with sufficient volume history and a
predictor returning the negative value `-3`, `update_graph_with_ml` writes
`-3` into the edge table in place of the static cost `5` — no fallback
triggers on a negative prediction. -/
theorem update_negative_cost_counterexample :
    dictLookup (update_graph_with_ml gB dfW volW predictNeg).1.edges ("A", "B")
      = some (-3) ∧ (-3 : ℚ) < 0 ∧ ((-3 : ℚ) ≠ 5) := by
  refine ⟨?_, by norm_num, by norm_num⟩
  decide

/-- C2 (amended): whenever prediction succeeds for a listed edge, the
predicted value is written as the cost even when it is negative; the
static-cost fallback triggers only for missing or insufficient volume data
or a predictor exception, never on the sign or magnitude of the
prediction. -/
theorem update_writes_negative_prediction (g : Graph String)
    (df : List (String × String × ℚ)) (volume : List VolumeRow)
    (predict : List ℚ → Except String ℚ) (l1 : List (String × String × ℚ))
    (row : String × String × ℚ) (l2 : List (String × String × ℚ)) (v : ℚ)
    (hneg : v < 0)
    (hdf : normDf df = l1 ++ row :: l2)
    (hlast : ∀ r ∈ l2, (r.1, r.2.1) ≠ (row.1, row.2.1))
    (hok : processEdge (normVolume volume) predict row.1 row.2.2 = (v, true)) :
    dictLookup (update_graph_with_ml g df volume predict).1.edges (row.1, row.2.1)
      = some v := by
  show dictLookup (updateEdges (normVolume volume) predict (normDf df) g.edges)
      (row.1, row.2.1) = _
  rw [hdf, updateEdges_lookup_last _ _ _ _ _ _ hlast, hok]

theorem update_writes_negative_prediction_witness :
    dictLookup (update_graph_with_ml gB dfW volW predictNeg).1.edges ("A", "B")
      = some (-3) :=
  update_writes_negative_prediction gB dfW volW predictNeg [] ("A", "B", 5) [] (-3)
    (by norm_num) (by decide) (by simp) (by decide)

/-- C8: on an edge whose volume history is insufficient, the Reweighter is
idempotent: the first run assigns the static fallback cost and a second
run with the same edge list and volume data assigns the same value,
leaving the cost unchanged. -/
theorem update_idempotent_insufficient (g : Graph String)
    (df : List (String × String × ℚ)) (volume : List VolumeRow)
    (predict : List ℚ → Except String ℚ) (l1 : List (String × String × ℚ))
    (row : String × String × ℚ) (l2 : List (String × String × ℚ))
    (hdf : normDf df = l1 ++ row :: l2)
    (hlast : ∀ r ∈ l2, (r.1, r.2.1) ≠ (row.1, row.2.1))
    (hins : insufficientHistory (normVolume volume) row.1 = true) :
    dictLookup (update_graph_with_ml g df volume predict).1.edges (row.1, row.2.1)
      = some row.2.2 ∧
    dictLookup (update_graph_with_ml
        (update_graph_with_ml g df volume predict).1 df volume predict).1.edges
      (row.1, row.2.1) = some row.2.2 := by
  have hpe := processEdge_insufficient (normVolume volume) predict row.1 row.2.2 hins
  constructor
  · show dictLookup (updateEdges (normVolume volume) predict (normDf df) g.edges)
        (row.1, row.2.1) = _
    rw [hdf, updateEdges_lookup_last _ _ _ _ _ _ hlast, hpe]
  · show dictLookup (updateEdges (normVolume volume) predict (normDf df)
        (update_graph_with_ml g df volume predict).1.edges) (row.1, row.2.1) = _
    rw [hdf, updateEdges_lookup_last _ _ _ _ _ _ hlast, hpe]

theorem get_neighbors_eq_nil {ν : Type} [LinearOrder ν] (g : Graph ν) (n : ν)
    (h : ∀ e ∈ g.edges, e.1.1 ≠ n) : g.get_neighbors n = [] := by
  unfold Graph.get_neighbors
  have hf : g.edges.filter (fun e => e.1.1 = n) = [] := by
    rw [List.filter_eq_nil]
    intro e he
    simp [h e he]
  rw [hf]
  rfl

theorem insertAll_nil {ν : Type} [LinearOrder ν] (d : Discipline ν)
    (rest : List (Entry ν)) : insertAll d [] rest = rest := by
  cases d with
  | stack => rw [insertAll]; exact List.nil_append rest
  | queue => rw [insertAll]; exact List.append_nil rest
  | priority f => rw [insertAll]; exact List.foldl_nil

theorem searchLoop_no_destinations {ν : Type} [LinearOrder ν] (g : Graph ν)
    (d : Discipline ν) (hdest : g.destinations = []) :
    ∀ (frontier : List (Entry ν)) (visited : Finset ν) (created : ℕ),
      (searchLoop g d frontier visited created).1 = none ∧
      (searchLoop g d frontier visited created).2.2 = [] := by
  intro frontier visited created
  induction frontier, visited, created using searchLoop.induct g d with
  | case1 visited created =>
    rw [searchLoop]
    exact ⟨rfl, rfl⟩
  | case2 e rest visited created hv ih =>
    rw [searchLoop]
    simp only [hv, dif_pos]
    exact ih
  | case3 e rest visited created hv hdst =>
    exact absurd hdst (by simp [Graph.is_destination, hdest])
  | case4 e rest visited created hv hdst ih =>
    rw [searchLoop]
    simp only [hv, hdst, dif_neg, not_false_iff]
    exact ih

theorem genSearch_origin_absent {ν : Type} [LinearOrder ν] (g : Graph ν)
    (d : Discipline ν) (horig : ∀ e ∈ g.edges, e.1.1 ≠ g.origin)
    (hdest : g.origin ∉ g.destinations) :
    genSearch g d = (none, 1, []) := by
  unfold genSearch
  rw [searchLoop]
  have h1 : (⟨g.origin, [g.origin], 0, d.keyOf g.origin 0⟩ : Entry ν).node
      ∉ (∅ : Finset ν) := Finset.not_mem_empty _
  have h2 : ¬ g.is_destination (⟨g.origin, [g.origin], 0,
      d.keyOf g.origin 0⟩ : Entry ν).node = true := by
    simp [Graph.is_destination, hdest]
  rw [dif_neg h1, dif_neg h2]
  rw [get_neighbors_eq_nil g _ horig]
  simp only [List.map_nil, List.length_nil, Nat.add_zero]
  rw [insertAll_nil, searchLoop]

/-- C7: each of the six strategies, invoked on a graph whose destination
list is empty, or whose origin is not present in the graph (no node-table
entry, no outgoing edge, and — since §3's invariant ties destinations to
graph nodes — not a destination), returns a well-formed result triple: no
destination reached and an empty path, with a created-node count; being
total functions of the graph, the strategies cannot raise. -/
theorem strategies_degenerate {ν : Type} [LinearOrder ν] (g : Graph ν) (w : ℚ)
    (h : g.destinations = [] ∨
      (g.origin ∉ g.nodes.map Prod.fst ∧ (∀ e ∈ g.edges, e.1.1 ≠ g.origin) ∧
        g.origin ∉ g.destinations)) :
    ((dfs g).1 = none ∧ (dfs g).2.2 = []) ∧
    ((bfs g).1 = none ∧ (bfs g).2.2 = []) ∧
    ((gbfs g).1 = none ∧ (gbfs g).2.2 = []) ∧
    ((astar g).1 = none ∧ (astar g).2.2 = []) ∧
    ((cus1 g).1 = none ∧ (cus1 g).2.2 = []) ∧
    ((cus2 w g).1 = none ∧ (cus2 w g).2.2 = []) := by
  have key : ∀ dc : Discipline ν, (genSearch g dc).1 = none ∧ (genSearch g dc).2.2 = [] := by
    intro dc
    rcases h with h | ⟨h1, h2, h3⟩
    · exact searchLoop_no_destinations g dc h _ _ _
    · rw [genSearch_origin_absent g dc h2 h3]
      exact ⟨rfl, rfl⟩
  exact ⟨key _, key _, key _, key _, key _, key _⟩

theorem strategies_degenerate_witness :
    ((dfs gE).1 = none ∧ (dfs gE).2.2 = []) ∧
    ((bfs gE).1 = none ∧ (bfs gE).2.2 = []) ∧
    ((gbfs gE).1 = none ∧ (gbfs gE).2.2 = []) ∧
    ((astar gE).1 = none ∧ (astar gE).2.2 = []) ∧
    ((cus1 gE).1 = none ∧ (cus1 gE).2.2 = []) ∧
    ((cus2 1 gE).1 = none ∧ (cus2 1 gE).2.2 = []) :=
  strategies_degenerate gE 1 (Or.inl rfl)

theorem update_idempotent_insufficient_witness :
    dictLookup (update_graph_with_ml gB dfW vol3 predictOk).1.edges ("A", "B")
      = some 5 ∧
    dictLookup (update_graph_with_ml
        (update_graph_with_ml gB dfW vol3 predictOk).1 dfW vol3 predictOk).1.edges
      ("A", "B") = some 5 :=
  update_idempotent_insufficient gB dfW vol3 predictOk [] ("A", "B", 5) []
    (by decide) (by simp) (by decide)

end Assignment2B
